import Mathlib

/-!
fastllm: low-bit quantisation config and the `quant` command-line tool

A shallow embedding of `LowBitConfig` (include/fastllm.h) and of `ParseArgs` / `main`
(tools/quant.cpp).

Floating-point values are read as exact elements of an ordered field `α` with a floor
function (`ℚ` for evaluation, `ℝ` for the mathematical statements).  Operations that have
no value in exact arithmetic, or no defined value in C++, return a `Fault`.

`ResetWith` is `Reset` with the rounded operations of `float` as a parameter (`FloatOps`), for
what holds of the stored byte whatever the rounding; `exactOps` gives back `Reset`, and
`binary32Ops` is IEEE binary32 with round to nearest even.
-/

namespace fastllm

/-- Ways in which the arithmetic of `LowBitConfig` can leave exact, defined arithmetic. -/
inductive Fault where
  /-- `(1 << bit) - 1` on a 32-bit `int` with `bit` outside `0 .. 30`. -/
  | shiftOutOfRange
  /-- A division whose divisor is zero. -/
  | divByZero
  /-- A conversion to `uint8_t` of a value whose truncation is outside `0 .. 255`. -/
  | castOutOfRange
  deriving DecidableEq

/-- The struct `LowBitConfig`: fields `bit`, `min`, `max`, `zeroPoint` (one byte), `scale`. -/
structure LowBitConfig (α : Type) where
  bit : Int
  min : α
  max : α
  zeroPoint : Nat
  scale : α
  deriving DecidableEq

section Arith

variable {α : Type} [LinearOrderedField α] [FloorRing α]

/-- `std::min(a, b)`, which is `(b < a) ? b : a`. -/
def stdMin (a b : α) : α := if b < a then b else a

/-- `std::max(a, b)`, which is `(a < b) ? b : a`. -/
def stdMax (a b : α) : α := if a < b then b else a

/-- `std::round`: nearest integer, halfway cases away from zero. -/
def stdRound (x : α) : α :=
  if 0 ≤ x then ((⌊x + 1 / 2⌋ : ℤ) : α) else -((⌊-x + 1 / 2⌋ : ℤ) : α)

/-- Truncation toward zero, the first step of a floating-to-integer conversion. -/
def truncToInt (x : α) : ℤ := if 0 ≤ x then ⌊x⌋ else ⌈x⌉

/-- Conversion of a floating value to `uint8_t`: truncate, and the truncated value has to be
representable in one byte. -/
def castUInt8 (x : α) : Except Fault Nat :=
  if 0 ≤ truncToInt x ∧ truncToInt x ≤ 255 then .ok (truncToInt x).toNat
  else .error .castOutOfRange

/-- Division read over the exact field: no value when the divisor is zero. -/
def fdiv (a b : α) : Except Fault α :=
  if b = 0 then .error .divByZero else .ok (a / b)

/-- The `int` expression `(1 << bit) - 1`. -/
def shiftMask (bit : Int) : Except Fault Int :=
  if 0 ≤ bit ∧ bit ≤ 30 then .ok (2 ^ bit.toNat - 1) else .error .shiftOutOfRange

/-- `LowBitConfig::Reset`. -/
def Reset (c : LowBitConfig α) : Except Fault (LowBitConfig α) := do
  let min := stdMin c.min 0
  let max := stdMax c.max 0
  let qmin : α := 0
  let mask ← shiftMask c.bit
  let qmax : α := (mask : α)
  let scale ← fdiv (max - min) (qmax - qmin)
  let quot ← fdiv min scale
  let initial_zero_point : α := qmin - quot
  let zeroPoint ←
    (if initial_zero_point < qmin then castUInt8 qmin
     else if initial_zero_point > qmax then castUInt8 qmax
     else castUInt8 (stdRound initial_zero_point))
  pure { bit := c.bit, min := min, max := max, zeroPoint := zeroPoint, scale := scale }

/-- The constructor `LowBitConfig(min, max, bit)`: store the three arguments and call `Reset`.
The fields `zeroPoint` and `scale` are uninitialised at that call; `Reset` overwrites them
without reading them, so `z0` and `s0` stand for whatever they hold. -/
def LowBitConfig.new (min max : α) (bit : Int) (z0 : Nat) (s0 : α) :
    Except Fault (LowBitConfig α) :=
  Reset { bit := bit, min := min, max := max, zeroPoint := z0, scale := s0 }

/-- `LowBitConfig::quantization`. -/
def quantization (c : LowBitConfig α) (realNumber : α) : Except Fault Nat := do
  let mask ← shiftMask c.bit
  let quot ← fdiv realNumber c.scale
  castUInt8 (stdMin (mask : α) (stdMax (quot + (c.zeroPoint : α) + 1 / 2) 0))

/-- `LowBitConfig::invQuantization`. -/
def invQuantization (c : LowBitConfig α) (qNumber : Nat) : α :=
  c.scale * ((qNumber : α) - (c.zeroPoint : α))

/-- The rounded operations of the type `float` that `Reset` uses: the conversion from `int`,
the subtraction and the division.  An operation has no value (`none`) where its IEEE result is
not a finite number. -/
structure FloatOps (α : Type) where
  ofInt : ℤ → α
  sub : α → α → Option α
  div : α → α → Option α

/-- The operations without rounding, on an exact field. -/
def exactOps : FloatOps α where
  ofInt := fun z => (z : α)
  sub := fun a b => some (a - b)
  div := fun a b => if b = 0 then none else some (a / b)

/-- `LowBitConfig::Reset` with every operation on `float` taken from `ops`.  The literal `0`,
`std::min`, `std::max`, the comparisons, `std::round` and the truncation of the cast are exact
on floats and are as in `Reset`. -/
def ResetWith (ops : FloatOps α) (c : LowBitConfig α) : Option (LowBitConfig α) := do
  let min := stdMin c.min 0
  let max := stdMax c.max 0
  let qmin : α := 0
  let mask ← (shiftMask c.bit).toOption
  let qmax : α := ops.ofInt mask
  let range ← ops.sub max min
  let levels ← ops.sub qmax qmin
  let scale ← ops.div range levels
  let quot ← ops.div min scale
  let initial_zero_point ← ops.sub qmin quot
  let zeroPoint ←
    (if initial_zero_point < qmin then castUInt8 qmin
     else if initial_zero_point > qmax then castUInt8 qmax
     else castUInt8 (stdRound initial_zero_point)).toOption
  pure { bit := c.bit, min := min, max := max, zeroPoint := zeroPoint, scale := scale }

/-- What holds of a config that `Reset` has derived, for the bit width `n`. -/
structure Derived (n : ℕ) (c : LowBitConfig α) : Prop where
  bit_eq : c.bit = (n : ℤ)
  min_le : c.min ≤ 0
  max_ge : 0 ≤ c.max
  qmax_pos : 0 < (2 : α) ^ n - 1
  scale_pos : 0 < c.scale
  scale_eq : c.scale = (c.max - c.min) / ((2 : α) ^ n - 1)
  zp_eq : (c.zeroPoint : ℤ) = ⌊-c.min / c.scale + 1 / 2⌋
  zp_le : c.zeroPoint ≤ 255

end Arith

/-- The nearest integer, halfway cases to the even neighbour. -/
def roundHalfEven (x : ℚ) : ℤ :=
  if x - ⌊x⌋ < 1 / 2 then ⌊x⌋
  else if 1 / 2 < x - ⌊x⌋ then ⌊x⌋ + 1
  else if ⌊x⌋ % 2 = 0 then ⌊x⌋ else ⌊x⌋ + 1

/-- The rounding of an exact value to IEEE binary32, round to nearest even: a significand of
24 bits and exponents from -126, so the spacing around `x` is `2 ^ (e - 23)` with
`e = max ⌊log2 |x|⌋ (-126)`.  No value when the rounded magnitude reaches `2 ^ 128`. -/
def roundBinary32 (x : ℚ) : Option ℚ :=
  let e := max (Int.log 2 |x|) (-126)
  let y := (roundHalfEven (x / 2 ^ (e - 23)) : ℚ) * 2 ^ (e - 23)
  if |y| < 2 ^ (128 : ℤ) then some y else none

/-- The operations of `float` as IEEE binary32 on the finite values; a division by zero has no
finite value. -/
def binary32Ops : FloatOps ℚ where
  ofInt := fun z => (roundBinary32 z).getD 0
  sub := fun a b => roundBinary32 (a - b)
  div := fun a b => if b = 0 then none else roundBinary32 (a / b)

/-- The struct `QuantConfig` of the quant tool. -/
structure QuantConfig where
  model : String
  path : String
  output : String
  bits : Int
  deriving DecidableEq

/-- The declaration `QuantConfig config;`: `model` has the default member initialiser
"chatglm", the strings `path` and `output` start empty, and `bits` has no initialiser, so
`bits0` stands for whatever the field holds. -/
def QuantConfig.init (bits0 : Int) : QuantConfig :=
  { model := "chatglm", path := "", output := "", bits := bits0 }

/-- How a call of `ParseArgs` ends. -/
inductive ParseResult where
  /-- The loop ran to `i = argc` and the function returned; `config` is the updated struct. -/
  | returned (config : QuantConfig)
  /-- The function called `Usage()` and then `exit(status)`. -/
  | exited (status : Int)
  /-- The function evaluated `sargv[index]` with `index >= sargv.size()`. -/
  | readPastEnd (index : Nat)
  deriving DecidableEq

/-- The loop `for (int i = 1; i < argc; i++)` of `ParseArgs`, entered with index `i` and with
`rest` the elements `sargv[i], ..., sargv[argc - 1]`.  The head of `rest` is `sargv[i]`; the
read `sargv[++i]` is the next element, and is past the end of the vector when there is none.
`atoi` is the C library function. -/
def parseLoop (atoi : String → Int) : Nat → List String → QuantConfig → ParseResult
  | _, [], config => .returned config
  | i, a :: rest, config =>
    if a = "-h" ∨ a = "--help" then .exited 0
    else if a = "-m" ∨ a = "--model" then
      match rest with
      | [] => .readPastEnd (i + 1)
      | v :: rest2 => parseLoop atoi (i + 2) rest2 { config with model := v }
    else if a = "-p" ∨ a = "--path" then
      match rest with
      | [] => .readPastEnd (i + 1)
      | v :: rest2 => parseLoop atoi (i + 2) rest2 { config with path := v }
    else if a = "-b" ∨ a = "--bits" then
      match rest with
      | [] => .readPastEnd (i + 1)
      | v :: rest2 => parseLoop atoi (i + 2) rest2 { config with bits := atoi v }
    else if a = "-o" ∨ a = "--output" then
      match rest with
      | [] => .readPastEnd (i + 1)
      | v :: rest2 => parseLoop atoi (i + 2) rest2 { config with output := v }
    else .exited (-1)

/-- The function `ParseArgs(argc, argv, config)` with `argv` the list of the `argc` arguments. -/
def ParseArgs (atoi : String → Int) (argv : List String) (config : QuantConfig) : ParseResult :=
  parseLoop atoi 1 (argv.drop 1) config

/-- What `main` does that is visible from outside. -/
inductive Event where
  | usage
  | loadFromFile (model : String) (path : String)
  | saveLowBitModel (model : String) (output : String) (bits : Int)
  deriving DecidableEq

/-- How the process ends. -/
inductive Ending where
  | exit (status : Int)
  | readPastEnd (index : Nat)
  deriving DecidableEq

/-- A run of the tool: the events in order and the ending. -/
structure Run where
  events : List Event
  ending : Ending
  deriving DecidableEq

/-- The function `main`; the model methods `LoadFromFile` and `SaveLowBitModel` are recorded as
events and taken to return. -/
def main (atoi : String → Int) (bits0 : Int) (argv : List String) : Run :=
  match ParseArgs atoi argv (QuantConfig.init bits0) with
  | .exited status => ⟨[.usage], .exit status⟩
  | .readPastEnd index => ⟨[], .readPastEnd index⟩
  | .returned config =>
    if config.model = "moss" then
      ⟨[.loadFromFile "moss" config.path, .saveLowBitModel "moss" config.output config.bits],
        .exit 0⟩
    else if config.model = "chatglm" then
      ⟨[.loadFromFile "chatglm" config.path,
        .saveLowBitModel "chatglm" config.output config.bits], .exit 0⟩
    else if config.model = "vicuna" then
      ⟨[.loadFromFile "vicuna" config.path,
        .saveLowBitModel "vicuna" config.output config.bits], .exit 0⟩
    else ⟨[.usage], .exit (-1)⟩

/-- Vocabulary of the statements: the options that take a value. -/
def valueOptions : List String :=
  ["-m", "--model", "-p", "--path", "-b", "--bits", "-o", "--output"]

/-- Vocabulary of the statements: the help options. -/
def helpOptions : List String := ["-h", "--help"]

/-- Vocabulary of the statements: the tokens in option position of an argument list (program
name removed), read off the command-line grammar rather than off the loop: a value-taking
option is followed by its value, which is not in option position; any other token is followed
by the next token in option position. -/
def optionTokens : List String → List String
  | [] => []
  | [a] => [a]
  | a :: v :: t =>
    if a ∈ valueOptions then a :: optionTokens t else a :: optionTokens (v :: t)

/-- Vocabulary of the statements: every value-taking option in option position is followed by
a value. -/
def valuesFollow : List String → Bool
  | [] => true
  | [a] => !decide (a ∈ valueOptions)
  | a :: v :: t => if a ∈ valueOptions then valuesFollow t else valuesFollow (v :: t)

/-- Vocabulary of the statements: the argument list of a sequence of (option, value) pairs. -/
def flattenPairs : List (String × String) → List String
  | [] => []
  | p :: ps => p.1 :: p.2 :: flattenPairs ps

/-- Vocabulary of the statements: the value of the last pair whose option is one of `names`. -/
def lastValue (names : List String) (pairs : List (String × String)) : Option String :=
  (pairs.reverse.find? fun p => decide (p.1 ∈ names)).map Prod.snd

section OrderLemmas

variable {α : Type} [LinearOrderedField α]

theorem stdMin_eq_min (a b : α) : stdMin a b = min a b := by
  unfold stdMin
  split_ifs with h
  · exact (min_eq_right h.le).symm
  · exact (min_eq_left (not_lt.mp h)).symm

theorem stdMax_eq_max (a b : α) : stdMax a b = max a b := by
  unfold stdMax
  split_ifs with h
  · exact (max_eq_right h.le).symm
  · exact (max_eq_left (not_lt.mp h)).symm

theorem fdiv_eq_ok {a b q : α} (h : fdiv a b = .ok q) : b ≠ 0 ∧ q = a / b := by
  unfold fdiv at h
  split_ifs at h with hb
  exact ⟨hb, by cases h; rfl⟩

theorem two_pow_le_of_le_eight {n : ℕ} (hn : n ≤ 8) : (2 : α) ^ n - 1 ≤ 255 := by
  have h : (2 : α) ^ n ≤ 2 ^ 8 := pow_le_pow_right₀ (by norm_num) hn
  norm_num at h
  linarith

end OrderLemmas

section Lemmas

variable {α : Type} [LinearOrderedField α] [FloorRing α]

theorem shiftMask_eq_ok {bit m : Int} (h : shiftMask bit = .ok m) :
    0 ≤ bit ∧ bit ≤ 30 ∧ m = 2 ^ bit.toNat - 1 := by
  unfold shiftMask at h
  split_ifs at h with hb
  exact ⟨hb.1, hb.2, by cases h; rfl⟩

theorem castUInt8_eq_ok {x : α} {n : Nat} (h : castUInt8 x = .ok n) :
    (n : ℤ) = truncToInt x ∧ n ≤ 255 := by
  unfold castUInt8 at h
  split_ifs at h with hb
  cases h
  refine ⟨Int.toNat_of_nonneg hb.1, ?_⟩
  omega

/-- The body of `Reset` as a chain of binds. -/
theorem Reset_unfold (c0 : LowBitConfig α) :
    Reset c0 =
      (shiftMask c0.bit).bind fun mask =>
      (fdiv (stdMax c0.max 0 - stdMin c0.min 0) ((mask : α) - 0)).bind fun scale =>
      (fdiv (stdMin c0.min 0) scale).bind fun quot =>
      (if 0 - quot < 0 then castUInt8 (0 : α)
        else if 0 - quot > (mask : α) then castUInt8 (mask : α)
        else castUInt8 (stdRound (0 - quot))).bind fun z =>
      .ok { bit := c0.bit, min := stdMin c0.min 0, max := stdMax c0.max 0,
            zeroPoint := z, scale := scale } := rfl

theorem truncToInt_intCast (k : ℤ) : truncToInt ((k : ℤ) : α) = k := by
  unfold truncToInt
  split_ifs
  · exact Int.floor_intCast k
  · exact Int.ceil_intCast k

theorem castUInt8_intCast {k : ℤ} (h0 : 0 ≤ k) (h1 : k ≤ 255) :
    castUInt8 ((k : ℤ) : α) = .ok k.toNat := by
  unfold castUInt8
  rw [truncToInt_intCast, if_pos ⟨h0, h1⟩]

theorem stdRound_of_nonneg {x : α} (h : 0 ≤ x) : stdRound x = ((⌊x + 1 / 2⌋ : ℤ) : α) := by
  unfold stdRound
  rw [if_pos h]

theorem Derived.izp_nonneg {n : ℕ} {c : LowBitConfig α} (d : Derived n c) :
    0 ≤ -c.min / c.scale :=
  div_nonneg (neg_nonneg.mpr d.min_le) d.scale_pos.le

theorem Derived.izp_le {n : ℕ} {c : LowBitConfig α} (d : Derived n c) :
    -c.min / c.scale ≤ (2 : α) ^ n - 1 := by
  rw [div_le_iff₀ d.scale_pos]
  have h : ((2 : α) ^ n - 1) * c.scale = c.max - c.min := by
    rw [d.scale_eq]
    field_simp [d.qmax_pos.ne.symm]
  rw [h]
  linarith [d.max_ge]

theorem Reset_eq_ok {c0 c : LowBitConfig α} (h : Reset c0 = .ok c) :
    0 ≤ c0.bit ∧ c0.bit ≤ 30 ∧ c.bit = c0.bit ∧ c.min = min c0.min 0 ∧ c.max = max c0.max 0 ∧
      Derived c0.bit.toNat c := by
  rw [Reset_unfold] at h
  cases hm : shiftMask c0.bit with
  | error e => rw [hm] at h; cases h
  | ok mask =>
    rw [hm] at h
    simp only [Except.bind] at h
    cases hs : fdiv (stdMax c0.max 0 - stdMin c0.min 0) ((mask : α) - 0) with
    | error e => rw [hs] at h; cases h
    | ok scale =>
      rw [hs] at h
      simp only [Except.bind] at h
      cases hq : fdiv (stdMin c0.min 0) scale with
      | error e => rw [hq] at h; cases h
      | ok quot =>
        rw [hq] at h
        simp only [Except.bind] at h
        split at h
        · cases h
        rename_i z hz
        cases h
        obtain ⟨hb0, hb1, rfl⟩ := shiftMask_eq_ok hm
        obtain ⟨hne, hsc⟩ := fdiv_eq_ok hs
        obtain ⟨hne2, rfl⟩ := fdiv_eq_ok hq
        rw [stdMin_eq_min, stdMax_eq_max] at hsc
        simp only [stdMin_eq_min, stdMax_eq_max] at hz
        push_cast at hne hsc hz
        simp only [sub_zero, zero_sub] at hne hsc hz
        have hq0 : (0 : α) ≤ 2 ^ c0.bit.toNat - 1 := by
          have : (1 : α) ≤ 2 ^ c0.bit.toNat := one_le_pow₀ (by norm_num)
          linarith
        have hqpos : (0 : α) < 2 ^ c0.bit.toNat - 1 := lt_of_le_of_ne hq0 (Ne.symm hne)
        have hmin : min c0.min 0 ≤ 0 := min_le_right _ _
        have hmax : (0 : α) ≤ max c0.max 0 := le_max_right _ _
        have hs0 : 0 ≤ scale := by
          rw [hsc]
          exact div_nonneg (by linarith) hq0
        have hspos : 0 < scale := lt_of_le_of_ne hs0 (Ne.symm hne2)
        have d0 : 0 ≤ -(min c0.min 0 / scale) := by
          rw [← neg_div]
          exact div_nonneg (neg_nonneg.mpr hmin) hs0
        have d1 : -(min c0.min 0 / scale) ≤ 2 ^ c0.bit.toNat - 1 := by
          rw [← neg_div, div_le_iff₀ hspos]
          have h : ((2 : α) ^ c0.bit.toNat - 1) * scale = max c0.max 0 - min c0.min 0 := by
            rw [hsc]
            field_simp
          rw [h]
          linarith
        rw [if_neg (not_lt.mpr d0), if_neg (not_lt.mpr d1), stdRound_of_nonneg d0] at hz
        obtain ⟨hz1, hz2⟩ := castUInt8_eq_ok hz
        rw [truncToInt_intCast, ← neg_div] at hz1
        refine ⟨hb0, hb1, rfl, stdMin_eq_min _ _, stdMax_eq_max _ _, ?_⟩
        simp only [stdMin_eq_min, stdMax_eq_max]
        exact ⟨(Int.toNat_of_nonneg hb0).symm, hmin, hmax, hqpos, hspos, hsc, hz1, hz2⟩

theorem shiftMask_natCast {n : ℕ} (hn : n ≤ 30) : shiftMask (n : ℤ) = .ok (2 ^ n - 1) := by
  unfold shiftMask
  rw [if_pos ⟨Int.natCast_nonneg n, by exact_mod_cast hn⟩, Int.toNat_natCast]

/-- The code `quantization` returns on a derived config of at most eight bits: the floor of the
clamped value. -/
theorem quantization_eq {n : ℕ} {c : LowBitConfig α} (d : Derived n c) (hn : n ≤ 8) (x : α) :
    quantization c x =
      .ok (⌊min ((2 : α) ^ n - 1) (max (x / c.scale + (c.zeroPoint : α) + 1 / 2) 0)⌋).toNat := by
  have hv0 : 0 ≤ min ((2 : α) ^ n - 1) (max (x / c.scale + (c.zeroPoint : α) + 1 / 2) 0) :=
    le_min d.qmax_pos.le (le_max_right _ _)
  have hv1 : min ((2 : α) ^ n - 1) (max (x / c.scale + (c.zeroPoint : α) + 1 / 2) 0) ≤ 255 :=
    (min_le_left _ _).trans (two_pow_le_of_le_eight hn)
  unfold quantization
  rw [d.bit_eq, shiftMask_natCast (by omega)]
  simp only [bind, Except.bind, fdiv, if_neg d.scale_pos.ne.symm, stdMin_eq_min, stdMax_eq_max]
  push_cast
  unfold castUInt8 truncToInt
  rw [if_pos hv0, if_pos]
  refine ⟨Int.floor_nonneg.mpr hv0, ?_⟩
  rw [Int.floor_le_iff]
  push_cast
  linarith

theorem Reset_ok_of {c0 : LowBitConfig α} {n : ℕ} (hb : c0.bit = (n : ℤ)) (h1 : 1 ≤ n)
    (h8 : n ≤ 8) (hlt : min c0.min 0 < max c0.max 0) : ∃ c, Reset c0 = .ok c := by
  have hq1 : (2 : α) ≤ 2 ^ n := by
    calc (2 : α) = 2 ^ 1 := (pow_one _).symm
      _ ≤ 2 ^ n := pow_le_pow_right₀ (by norm_num) h1
  have hqpos : (0 : α) < 2 ^ n - 1 := by linarith
  have hspos : 0 < (max c0.max 0 - min c0.min 0) / ((2 : α) ^ n - 1) :=
    div_pos (by linarith) hqpos
  have hmin : min c0.min 0 ≤ 0 := min_le_right _ _
  have hmax : (0 : α) ≤ max c0.max 0 := le_max_right _ _
  have d0 : 0 ≤ -(min c0.min 0 / ((max c0.max 0 - min c0.min 0) / ((2 : α) ^ n - 1))) := by
    rw [← neg_div]
    exact div_nonneg (neg_nonneg.mpr hmin) hspos.le
  have d1 : -(min c0.min 0 / ((max c0.max 0 - min c0.min 0) / ((2 : α) ^ n - 1))) ≤ 2 ^ n - 1 := by
    rw [← neg_div, div_le_iff₀ hspos]
    have h : ((2 : α) ^ n - 1) * ((max c0.max 0 - min c0.min 0) / ((2 : α) ^ n - 1))
        = max c0.max 0 - min c0.min 0 := by
      field_simp
    rw [h]
    linarith
  rw [Reset_unfold, hb, shiftMask_natCast (by omega)]
  simp only [Except.bind, fdiv, stdMin_eq_min, stdMax_eq_max]
  push_cast
  simp only [sub_zero, zero_sub]
  rw [if_neg hqpos.ne.symm]
  simp only [if_neg hspos.ne.symm]
  rw [if_neg (not_lt.mpr d0), if_neg (not_lt.mpr d1), stdRound_of_nonneg d0, castUInt8_intCast]
  · exact ⟨_, rfl⟩
  · exact Int.floor_nonneg.mpr (by linarith)
  · rw [Int.floor_le_iff]
    push_cast
    have : (2 : α) ^ n - 1 ≤ 255 := two_pow_le_of_le_eight h8
    linarith

theorem int_qmax_nonneg (n : ℕ) : (0 : ℤ) ≤ 2 ^ n - 1 := by
  have : (1 : ℤ) ≤ 2 ^ n := one_le_pow₀ (by norm_num)
  linarith

theorem clamp_comm (Q r : ℤ) (h : 0 ≤ Q) : min Q (max r 0) = max 0 (min r Q) := by
  omega

theorem floor_min (a b : α) : ⌊min a b⌋ = min ⌊a⌋ ⌊b⌋ := Int.floor_mono.map_min

theorem floor_max (a b : α) : ⌊max a b⌋ = max ⌊a⌋ ⌊b⌋ := Int.floor_mono.map_max

/-- On a derived config of at most eight bits `quantization` returns, and the code it returns
is the nearest integer to `x / scale + zeroPoint` clamped to the code range. -/
theorem quantization_spec {n : ℕ} {c : LowBitConfig α} (d : Derived n c) (hn : n ≤ 8) (x : α) :
    ∃ q : ℕ, quantization c x = .ok q ∧
      (q : ℤ) = max 0 (min (round (x / c.scale + (c.zeroPoint : α))) (2 ^ n - 1)) := by
  refine ⟨_, quantization_eq d hn x, ?_⟩
  have hv0 : 0 ≤ min ((2 : α) ^ n - 1) (max (x / c.scale + (c.zeroPoint : α) + 1 / 2) 0) :=
    le_min d.qmax_pos.le (le_max_right _ _)
  have hQ : (2 : α) ^ n - 1 = (((2 : ℤ) ^ n - 1 : ℤ) : α) := by push_cast; rfl
  rw [Int.toNat_of_nonneg (Int.floor_nonneg.mpr hv0), hQ, floor_min, floor_max,
    Int.floor_intCast, round_eq]
  rw [Int.floor_zero]
  exact clamp_comm _ _ (int_qmax_nonneg n)

theorem Derived.zp_le_qmax {n : ℕ} {c : LowBitConfig α} (d : Derived n c) :
    (c.zeroPoint : ℤ) ≤ 2 ^ n - 1 := by
  rw [d.zp_eq, Int.floor_le_iff]
  push_cast
  linarith [d.izp_le]

theorem Derived.zp_round {n : ℕ} {c : LowBitConfig α} (d : Derived n c) :
    (c.zeroPoint : ℤ) = max 0 (min (round (-c.min / c.scale)) (2 ^ n - 1)) := by
  have h1 := d.zp_le_qmax
  have h2 := d.zp_eq
  rw [← round_eq] at h2
  rw [← h2]
  omega

/-- The distance between the zero point and the exact quotient `-min / scale`. -/
theorem Derived.zp_near {n : ℕ} {c : LowBitConfig α} (d : Derived n c) :
    -c.min / c.scale - 1 / 2 < (c.zeroPoint : α) ∧ (c.zeroPoint : α) ≤ -c.min / c.scale + 1 / 2 := by
  have h := d.zp_eq
  have h1 := Int.floor_le (-c.min / c.scale + 1 / 2)
  have h2 := Int.lt_floor_add_one (-c.min / c.scale + 1 / 2)
  rw [← h] at h1 h2
  push_cast at h1 h2
  constructor <;> linarith

theorem Derived.max_div {n : ℕ} {c : LowBitConfig α} (d : Derived n c) :
    c.max / c.scale = (2 : α) ^ n - 1 - -c.min / c.scale := by
  have hs := d.scale_pos.ne.symm
  have hq := d.qmax_pos.ne.symm
  have h : ((2 : α) ^ n - 1) * c.scale = c.max - c.min := by
    rw [d.scale_eq]
    field_simp
  field_simp
  linarith

/-- A config that `Reset` returns for a bit width in {1, 2, 4, 8} is derived for the width
`c.bit.toNat`, which is at most eight. -/
theorem Reset_derived {c0 c : LowBitConfig α}
    (hb : c0.bit = 1 ∨ c0.bit = 2 ∨ c0.bit = 4 ∨ c0.bit = 8) (hr : Reset c0 = .ok c) :
    Derived c.bit.toNat c ∧ 1 ≤ c.bit.toNat ∧ c.bit.toNat ≤ 8 ∧ c.bit = c0.bit ∧
      c.min = min c0.min 0 ∧ c.max = max c0.max 0 := by
  obtain ⟨_, _, h3, h4, h5, d⟩ := Reset_eq_ok hr
  rw [h3]
  refine ⟨d, ?_, ?_, rfl, h4, h5⟩ <;> omega

theorem Reset_congr {c c1 : LowBitConfig α} (hb : c1.bit = c.bit)
    (hmin : stdMin c1.min 0 = stdMin c.min 0) (hmax : stdMax c1.max 0 = stdMax c.max 0) :
    Reset c1 = Reset c := by
  rw [Reset_unfold, Reset_unfold, hb, hmin, hmax]

/-- The round trip on a derived config: the code of `x` decodes to within half a step of `x`
when `x` lies between the stored bounds. -/
theorem Derived.roundtrip {n : ℕ} {c : LowBitConfig α} (d : Derived n c) (hn : n ≤ 8) (x : α)
    (hlo : c.min ≤ x) (hhi : x ≤ c.max) :
    ∃ q : ℕ, quantization c x = .ok q ∧ |invQuantization c q - x| ≤ c.scale / 2 := by
  obtain ⟨q, hq, hqe⟩ := quantization_spec d hn x
  refine ⟨q, hq, ?_⟩
  have hs := d.scale_pos
  obtain ⟨z1, z2⟩ := d.zp_near
  -- bounds on y = x / scale + zeroPoint
  have hy0 : -(-c.min / c.scale) ≤ x / c.scale := by
    rw [neg_div, neg_neg]
    exact div_le_div_of_nonneg_right hlo hs.le
  have hy1 : x / c.scale ≤ (2 : α) ^ n - 1 - -c.min / c.scale := by
    rw [← d.max_div]
    exact div_le_div_of_nonneg_right hhi hs.le
  rw [round_eq] at hqe
  have f1 := Int.floor_le (x / c.scale + (c.zeroPoint : α) + 1 / 2)
  have f2 := Int.lt_floor_add_one (x / c.scale + (c.zeroPoint : α) + 1 / 2)
  have hr0 : 0 ≤ ⌊x / c.scale + (c.zeroPoint : α) + 1 / 2⌋ :=
    Int.floor_nonneg.mpr (by linarith)
  have hQ := int_qmax_nonneg n
  -- the distance between the code and y is at most one half
  have key : |(q : α) - (x / c.scale + (c.zeroPoint : α))| ≤ 1 / 2 := by
    rw [abs_le]
    rcases le_total ⌊x / c.scale + (c.zeroPoint : α) + 1 / 2⌋ (2 ^ n - 1) with h | h
    · have hq2 : (q : ℤ) = ⌊x / c.scale + (c.zeroPoint : α) + 1 / 2⌋ := by omega
      have hq3 : (q : α) = (⌊x / c.scale + (c.zeroPoint : α) + 1 / 2⌋ : α) := by
        exact_mod_cast congrArg (Int.cast : ℤ → α) hq2
      rw [hq3]
      constructor <;> linarith
    · have hq2 : (q : ℤ) = 2 ^ n - 1 := by omega
      have hq3 : (q : α) = (2 : α) ^ n - 1 := by
        exact_mod_cast congrArg (Int.cast : ℤ → α) hq2
      have h' : (((2 : ℤ) ^ n - 1 : ℤ) : α) ≤ x / c.scale + (c.zeroPoint : α) + 1 / 2 :=
        Int.le_floor.mp h
      push_cast at h'
      rw [hq3]
      constructor <;> linarith
  have e : invQuantization c q - x
      = c.scale * ((q : α) - (x / c.scale + (c.zeroPoint : α))) := by
    unfold invQuantization
    field_simp
    ring
  rw [e, abs_mul, abs_of_pos hs]
  calc c.scale * |(q : α) - (x / c.scale + (c.zeroPoint : α))|
      ≤ c.scale * (1 / 2) := mul_le_mul_of_nonneg_left key hs.le
    _ = c.scale / 2 := by ring

/-- The three branches that assign `zeroPoint`, for a mask `Q` that fits one byte: the value
stored is the nearest integer to `izp` clamped to `[0, Q]`. -/
theorem zeroPoint_branches (izp : α) (Q : ℤ) (h0 : 0 ≤ Q) (h255 : Q ≤ 255) :
    (if izp < 0 then castUInt8 (0 : α)
      else if izp > (Q : α) then castUInt8 (Q : α)
      else castUInt8 (stdRound izp)) = .ok (max 0 (min (round izp) Q)).toNat := by
  have hz : castUInt8 (0 : α) = .ok 0 := by
    have h : castUInt8 (((0 : ℤ) : α)) = .ok (0 : ℤ).toNat :=
      castUInt8_intCast (le_refl (0 : ℤ)) (by norm_num)
    simpa using h
  rw [round_eq]
  by_cases h1 : izp < 0
  · rw [if_pos h1, hz]
    have hr : ⌊izp + 1 / 2⌋ ≤ 0 := by
      rw [Int.floor_le_iff]
      push_cast
      linarith
    have e : max 0 (min ⌊izp + 1 / 2⌋ Q) = 0 := by omega
    rw [e]
    rfl
  · rw [if_neg h1]
    by_cases h2 : izp > (Q : α)
    · rw [if_pos h2, castUInt8_intCast h0 h255]
      have hr : Q ≤ ⌊izp + 1 / 2⌋ := by
        rw [Int.le_floor]
        linarith
      have e : max 0 (min ⌊izp + 1 / 2⌋ Q) = Q := by omega
      rw [e]
    · rw [if_neg h2, stdRound_of_nonneg (not_lt.mp h1)]
      have hr0 : 0 ≤ ⌊izp + 1 / 2⌋ := Int.floor_nonneg.mpr (by linarith [not_lt.mp h1])
      have hr1 : ⌊izp + 1 / 2⌋ ≤ Q := by
        rw [Int.floor_le_iff]
        linarith [not_lt.mp h2]
      rw [castUInt8_intCast hr0 (by omega)]
      have e : max 0 (min ⌊izp + 1 / 2⌋ Q) = ⌊izp + 1 / 2⌋ := by omega
      rw [e]

/-- The body of `ResetWith` as a chain of binds. -/
theorem ResetWith_unfold (ops : FloatOps α) (c0 : LowBitConfig α) :
    ResetWith ops c0 =
      (shiftMask c0.bit).toOption.bind fun mask =>
      (ops.sub (stdMax c0.max 0) (stdMin c0.min 0)).bind fun range =>
      (ops.sub (ops.ofInt mask) 0).bind fun levels =>
      (ops.div range levels).bind fun scale =>
      (ops.div (stdMin c0.min 0) scale).bind fun quot =>
      (ops.sub 0 quot).bind fun izp =>
      (if izp < 0 then castUInt8 (0 : α)
        else if izp > ops.ofInt mask then castUInt8 (ops.ofInt mask)
        else castUInt8 (stdRound izp)).toOption.bind fun z =>
      some { bit := c0.bit, min := stdMin c0.min 0, max := stdMax c0.max 0,
             zeroPoint := z, scale := scale } := rfl

/-- `ResetWith` once its operations have returned: what is left is the choice of the zero
point. -/
theorem ResetWith_eval (ops : FloatOps α) (c0 : LowBitConfig α) (mask : ℤ)
    (range levels scale quot izp : α) (hm : shiftMask c0.bit = .ok mask)
    (h1 : ops.sub (stdMax c0.max 0) (stdMin c0.min 0) = some range)
    (h2 : ops.sub (ops.ofInt mask) 0 = some levels)
    (h3 : ops.div range levels = some scale)
    (h4 : ops.div (stdMin c0.min 0) scale = some quot)
    (h5 : ops.sub 0 quot = some izp) :
    ResetWith ops c0 =
      (if izp < 0 then castUInt8 (0 : α)
        else if izp > ops.ofInt mask then castUInt8 (ops.ofInt mask)
        else castUInt8 (stdRound izp)).toOption.bind fun z =>
      some { bit := c0.bit, min := stdMin c0.min 0, max := stdMax c0.max 0,
             zeroPoint := z, scale := scale } := by
  rw [ResetWith_unfold, hm]
  show (some mask).bind _ = _
  simp only [Option.some_bind, h1, h2, h3, h4, h5]

theorem toOption_bind_ok {β γ : Type} (e : Except Fault β) (f : β → γ) :
    e.toOption.bind (fun z => some (f z)) = (e.bind fun z => .ok (f z)).toOption := by
  cases e <;> rfl

/-- Without rounding `ResetWith` is `Reset`. -/
theorem ResetWith_exactOps (c : LowBitConfig α) :
    ResetWith exactOps c = (Reset c).toOption := by
  rw [Reset_unfold, ResetWith_unfold]
  cases hm : shiftMask c.bit with
  | error e => rfl
  | ok mask =>
    simp only [exactOps, fdiv]
    show (some mask).bind _ = _
    simp only [Option.some_bind, Except.bind]
    by_cases hq : (mask : α) - 0 = 0
    · simp only [if_pos hq]
      rfl
    · simp only [if_neg hq, Option.some_bind]
      by_cases hs : (stdMax c.max 0 - stdMin c.min 0) / ((mask : α) - 0) = 0
      · simp only [if_pos hs]
        rfl
      · simp only [if_neg hs, Option.some_bind]
        exact toOption_bind_ok _ _

end Lemmas

section Samples

/-- Reset on the 8-bit segment [-1, 1]: scale 2/255 and zero point 128 (from 127.5). -/
theorem Reset_sample :
    Reset (⟨8, -1, 1, 0, 0⟩ : LowBitConfig ℚ) = .ok ⟨8, -1, 1, 128, 2 / 255⟩ := by
  have h8 : Int.toNat 8 = 8 := rfl
  have h128 : Int.toNat 128 = 128 := rfl
  have hf : ⌊(128 : ℚ)⌋ = 128 := Int.floor_ofNat 128
  norm_num [Reset_unfold, shiftMask, fdiv, stdMin, stdMax, castUInt8, truncToInt, stdRound,
    Except.bind, h8, h128, hf]

/-- Reset on the 16-bit segment [-1, 0]: the zero point 65535 does not fit the one-byte field. -/
theorem Reset_sample_16 :
    Reset (⟨16, -1, 0, 0, 0⟩ : LowBitConfig ℚ) = .error .castOutOfRange := by
  have h16 : Int.toNat 16 = 16 := rfl
  have hf : ⌊(131071 / 2 : ℚ)⌋ = 65535 := by norm_num [Int.floor_eq_iff]
  have hg : ⌊(65535 : ℚ)⌋ = 65535 := Int.floor_ofNat 65535
  norm_num [Reset_unfold, shiftMask, fdiv, stdMin, stdMax, castUInt8, truncToInt, stdRound,
    Except.bind, h16, hf, hg]

theorem roundHalfEven_eq (x : ℚ) (k : ℤ) (h : |x - k| < 1 / 2) : roundHalfEven x = k := by
  rw [abs_lt] at h
  unfold roundHalfEven
  have f1 := Int.floor_le x
  have f2 := Int.lt_floor_add_one x
  by_cases c1 : x - ⌊x⌋ < 1 / 2
  · rw [if_pos c1]
    have a1 : (⌊x⌋ : ℚ) < (k : ℚ) + 1 := by linarith
    have a2 : (k : ℚ) < (⌊x⌋ : ℚ) + 1 := by linarith
    have b1 : ⌊x⌋ < k + 1 := by exact_mod_cast a1
    have b2 : k < ⌊x⌋ + 1 := by exact_mod_cast a2
    omega
  · rw [if_neg c1]
    have c2 : 1 / 2 < x - ⌊x⌋ := by
      rcases lt_or_eq_of_le (not_lt.mp c1) with h2 | h2
      · exact h2
      · exfalso
        have a1 : (k : ℚ) < (⌊x⌋ : ℚ) + 1 := by linarith
        have a2 : (⌊x⌋ : ℚ) < (k : ℚ) := by linarith
        have b1 : k < ⌊x⌋ + 1 := by exact_mod_cast a1
        have b2 : ⌊x⌋ < k := by exact_mod_cast a2
        omega
    rw [if_pos c2]
    have a1 : (⌊x⌋ : ℚ) + 1 < (k : ℚ) + 1 := by linarith
    have a2 : (k : ℚ) < (⌊x⌋ : ℚ) + 1 + 1 := by linarith
    have b1 : ⌊x⌋ + 1 < k + 1 := by exact_mod_cast a1
    have b2 : k < ⌊x⌋ + 1 + 1 := by exact_mod_cast a2
    omega

/-- The binary32 value of `x` from its binade `e` and the nearest multiple `k` of the
spacing. -/
theorem roundBinary32_eq (x : ℚ) (e k : ℤ) (hx : 0 < |x|) (he1 : (2 : ℚ) ^ e ≤ |x|)
    (he2 : |x| < (2 : ℚ) ^ (e + 1)) (hmin : -126 ≤ e)
    (hk : |x / 2 ^ (e - 23) - k| < 1 / 2) (hov : |(k : ℚ) * 2 ^ (e - 23)| < 2 ^ (128 : ℤ)) :
    roundBinary32 x = some ((k : ℚ) * 2 ^ (e - 23)) := by
  have hlog : Int.log 2 |x| = e := by
    apply le_antisymm
    · have h : Int.log 2 |x| < e + 1 :=
        (Int.lt_zpow_iff_log_lt (by norm_num) hx).mp (by exact_mod_cast he2)
      omega
    · exact (Int.zpow_le_iff_le_log (by norm_num) hx).mp (by exact_mod_cast he1)
  unfold roundBinary32
  simp only [hlog, max_eq_left hmin, roundHalfEven_eq _ k hk, if_pos hov]

theorem roundBinary32_two : roundBinary32 (1 - (-1)) = some 2 := by
  have h := roundBinary32_eq (1 - (-1)) 1 8388608 (by norm_num) (by norm_num) (by norm_num)
    (by norm_num) (by norm_num) (by norm_num)
  rw [h]
  norm_num

theorem roundBinary32_mask : roundBinary32 (255 - 0) = some 255 := by
  have h := roundBinary32_eq (255 - 0) 7 16711680 (by norm_num) (by norm_num) (by norm_num)
    (by norm_num) (by norm_num) (by norm_num)
  rw [h]
  norm_num

theorem roundBinary32_scale : roundBinary32 (2 / 255) = some (8421505 / 1073741824) := by
  have h := roundBinary32_eq (2 / 255) (-7) 8421505 (by norm_num [abs_div]) (by norm_num [abs_div])
    (by norm_num [abs_div]) (by norm_num) (by norm_num [abs_lt]) (by norm_num [abs_div])
  rw [h]
  norm_num

theorem roundBinary32_quot :
    roundBinary32 (-1 / (8421505 / 1073741824)) = some (-(16711679 / 131072)) := by
  have h := roundBinary32_eq (-1 / (8421505 / 1073741824)) 6 (-16711679) (by norm_num [abs_div])
    (by norm_num [abs_div]) (by norm_num [abs_div]) (by norm_num) (by norm_num [abs_lt])
    (by norm_num [abs_div])
  rw [h]
  norm_num

theorem roundBinary32_izp :
    roundBinary32 (0 - -(16711679 / 131072)) = some (16711679 / 131072) := by
  have h := roundBinary32_eq (0 - -(16711679 / 131072)) 6 16711679 (by norm_num [abs_div])
    (by norm_num [abs_div]) (by norm_num [abs_div]) (by norm_num) (by norm_num [abs_lt])
    (by norm_num [abs_div])
  rw [h]
  norm_num

theorem binary32_ofInt_mask :
    binary32Ops.ofInt (2 ^ (8 : ℤ).toNat - 1) = (((2 : ℤ) ^ (8 : ℤ).toNat - 1 : ℤ) : ℚ) := by
  have hmask : roundBinary32 255 = some 255 := by simpa using roundBinary32_mask
  have e : ((2 : ℤ) ^ (8 : ℤ).toNat - 1 : ℤ) = 255 := by
    norm_num [show (8 : ℤ).toNat = 8 from rfl]
  rw [e]
  simp [binary32Ops, hmask]

theorem binary32_range : binary32Ops.sub (max (1 : ℚ) 0) (min (-1) 0) = some 2 := by
  have e1 : max (1 : ℚ) 0 = 1 := by norm_num
  have e2 : min (-1 : ℚ) 0 = -1 := by norm_num
  rw [e1, e2]
  exact roundBinary32_two

theorem binary32_levels :
    binary32Ops.sub (binary32Ops.ofInt (2 ^ (8 : ℤ).toNat - 1)) 0 = some 255 := by
  rw [binary32_ofInt_mask]
  have e : ((((2 : ℤ) ^ (8 : ℤ).toNat - 1 : ℤ)) : ℚ) = 255 := by
    norm_num [show (8 : ℤ).toNat = 8 from rfl]
  rw [e]
  exact roundBinary32_mask

theorem binary32_scale : binary32Ops.div 2 255 = some (8421505 / 1073741824) := by
  simp [binary32Ops, roundBinary32_scale]

theorem binary32_quot :
    binary32Ops.div (min (-1) 0) (8421505 / 1073741824) = some (-(16711679 / 131072)) := by
  have e2 : min (-1 : ℚ) 0 = -1 := by norm_num
  rw [e2]
  simp only [binary32Ops]
  rw [if_neg (by norm_num)]
  exact roundBinary32_quot

theorem binary32_izp :
    binary32Ops.sub 0 (-(16711679 / 131072)) = some (16711679 / 131072) :=
  roundBinary32_izp

/-- Reset in binary32 on the 16-bit segment [-1, 0]: scale 65537 / 2^32, quotient -65535, and
the conversion of 65535 to the one-byte field has no value. -/
theorem ResetWith_binary32_sample_16 :
    ResetWith binary32Ops (⟨16, -1, 0, 0, 0⟩ : LowBitConfig ℚ) = none := by
  have hm : shiftMask 16 = .ok 65535 := by
    norm_num [shiftMask, show (16 : ℤ).toNat = 16 from rfl]
  have r1 : roundBinary32 (0 - (-1)) = some 1 := by
    have h := roundBinary32_eq (0 - (-1)) 0 8388608 (by norm_num) (by norm_num) (by norm_num)
      (by norm_num) (by norm_num) (by norm_num)
    rw [h]
    norm_num
  have r2 : roundBinary32 (65535 - 0) = some 65535 := by
    have h := roundBinary32_eq (65535 - 0) 15 16776960 (by norm_num) (by norm_num)
      (by norm_num) (by norm_num) (by norm_num) (by norm_num)
    rw [h]
    norm_num
  have r3 : roundBinary32 (1 / 65535) = some (65537 / 4294967296) := by
    have h := roundBinary32_eq (1 / 65535) (-16) 8388736 (by norm_num [abs_div])
      (by norm_num [abs_div]) (by norm_num [abs_div]) (by norm_num) (by norm_num [abs_lt])
      (by norm_num [abs_div])
    rw [h]
    norm_num
  have r4 : roundBinary32 (-1 / (65537 / 4294967296)) = some (-65535) := by
    have h := roundBinary32_eq (-1 / (65537 / 4294967296)) 15 (-16776960)
      (by norm_num [abs_div]) (by norm_num [abs_div]) (by norm_num [abs_div]) (by norm_num)
      (by norm_num [abs_lt]) (by norm_num [abs_div])
    rw [h]
    norm_num
  have r5 : roundBinary32 (0 - (-65535)) = some 65535 := by
    have h := roundBinary32_eq (0 - (-65535)) 15 16776960 (by norm_num) (by norm_num)
      (by norm_num) (by norm_num) (by norm_num) (by norm_num)
    rw [h]
    norm_num
  have hmask : roundBinary32 (((65535 : ℤ) : ℚ)) = some 65535 := by
    have e : (((65535 : ℤ) : ℚ)) = 65535 - 0 := by norm_num
    rw [e]
    exact r2
  have hconv : binary32Ops.ofInt 65535 = 65535 := by
    show (roundBinary32 (((65535 : ℤ) : ℚ))).getD 0 = 65535
    rw [hmask]
    rfl
  have hmin : stdMin (-1 : ℚ) 0 = -1 := by norm_num [stdMin]
  have hmax : stdMax (0 : ℚ) 0 = 0 := by norm_num [stdMax]
  have h1 : binary32Ops.sub (stdMax (0 : ℚ) 0) (stdMin (-1) 0) = some 1 := by
    rw [hmin, hmax]
    exact r1
  have h2 : binary32Ops.sub (binary32Ops.ofInt 65535) 0 = some 65535 := by
    rw [hconv]
    exact r2
  have h3 : binary32Ops.div 1 65535 = some (65537 / 4294967296) := by
    simp only [binary32Ops]
    rw [if_neg (by norm_num)]
    exact r3
  have h4 : binary32Ops.div (stdMin (-1 : ℚ) 0) (65537 / 4294967296) = some (-65535) := by
    rw [hmin]
    simp only [binary32Ops]
    rw [if_neg (by norm_num)]
    exact r4
  have h5 : binary32Ops.sub 0 (-65535) = some 65535 := r5
  have hf : ⌊(65535 : ℚ) + 1 / 2⌋ = 65535 := by norm_num [Int.floor_eq_iff]
  have hr : stdRound (65535 : ℚ) = ((65535 : ℤ) : ℚ) := by
    unfold stdRound
    rw [if_pos (by norm_num), hf]
  have hc : castUInt8 (((65535 : ℤ) : ℚ)) = .error .castOutOfRange := by
    unfold castUInt8
    rw [truncToInt_intCast, if_neg (by norm_num)]
  rw [ResetWith_eval binary32Ops ⟨16, -1, 0, 0, 0⟩ 65535 1 65535 (65537 / 4294967296) (-65535)
    65535 hm h1 h2 h3 h4 h5, hconv, if_neg (by norm_num), if_neg (by norm_num), hr, hc]
  rfl

end Samples

section QuantClaims

variable {α : Type} [LinearOrderedField α] [FloorRing α]

/-- C1: a config built by the constructor with bit in {1, 2, 4, 8} and clamped min < max has
scale > 0, and for every x between the clamped bounds quantization returns a code whose
dequantised value is within scale / 2 of x. -/
theorem roundtrip_error_le_half_scale (mn mx : α) (bit : ℤ) (z0 : ℕ) (s0 : α)
    (hb : bit = 1 ∨ bit = 2 ∨ bit = 4 ∨ bit = 8) (hlt : min mn 0 < max mx 0) :
    ∃ c, LowBitConfig.new mn mx bit z0 s0 = .ok c ∧ c.min = min mn 0 ∧ c.max = max mx 0 ∧
      0 < c.scale ∧
      ∀ x, c.min ≤ x → x ≤ c.max →
        ∃ q : ℕ, quantization c x = .ok q ∧ |invQuantization c q - x| ≤ c.scale / 2 := by
  have hn : bit = ((bit.toNat : ℕ) : ℤ) ∧ 1 ≤ bit.toNat ∧ bit.toNat ≤ 8 := by omega
  have hex : ∃ c, Reset (⟨bit, mn, mx, z0, s0⟩ : LowBitConfig α) = .ok c :=
    Reset_ok_of hn.1 hn.2.1 hn.2.2 hlt
  obtain ⟨c, hc⟩ := hex
  obtain ⟨d, _, h8, _, hmin, hmax⟩ := Reset_derived hb hc
  exact ⟨c, hc, hmin, hmax, d.scale_pos, fun x hlo hhi => d.roundtrip h8 x hlo hhi⟩

/-- C2: after Reset with bit in {1, 2, 4, 8} and scale > 0, quantization returns for every
input x, the code equals round(x / scale + zeroPoint) clamped to [0, 2^bit - 1], and it
lies in [0, 2^bit - 1]. -/
theorem quantization_eq_clamp_round (c0 c : LowBitConfig α)
    (hb : c0.bit = 1 ∨ c0.bit = 2 ∨ c0.bit = 4 ∨ c0.bit = 8) (hr : Reset c0 = .ok c)
    (_hs : 0 < c.scale) (x : α) :
    ∃ q : ℕ, quantization c x = .ok q ∧
      (q : ℤ) = max 0 (min (round (x / c.scale + (c.zeroPoint : α))) (2 ^ c.bit.toNat - 1)) ∧
      (q : ℤ) ≤ 2 ^ c.bit.toNat - 1 := by
  obtain ⟨d, _, h8, _⟩ := Reset_derived hb hr
  obtain ⟨q, hq, hqe⟩ := quantization_spec d h8 x
  have := int_qmax_nonneg c.bit.toNat
  exact ⟨q, hq, hqe, by omega⟩

/-- C3 (amended): for bit in {1, 2, 4, 8}, whatever the rounding of the float operations, when
the conversion of the mask is exact and the subtractions and divisions of Reset give finite
values range, levels, scale, quot and izp (the computed initial_zero_point = 0 - min / scale),
Reset returns a config with the clamped bounds and that scale, whose zeroPoint lies in
[0, 2^bit - 1] and equals izp rounded to nearest and clamped to that range. -/
theorem ResetWith_zeroPoint (ops : FloatOps α) (c0 : LowBitConfig α)
    (range levels scale quot izp : α)
    (hb : c0.bit = 1 ∨ c0.bit = 2 ∨ c0.bit = 4 ∨ c0.bit = 8)
    (hconv : ops.ofInt (2 ^ c0.bit.toNat - 1) = (((2 : ℤ) ^ c0.bit.toNat - 1 : ℤ) : α))
    (h1 : ops.sub (max c0.max 0) (min c0.min 0) = some range)
    (h2 : ops.sub (ops.ofInt (2 ^ c0.bit.toNat - 1)) 0 = some levels)
    (h3 : ops.div range levels = some scale)
    (h4 : ops.div (min c0.min 0) scale = some quot)
    (h5 : ops.sub 0 quot = some izp) :
    ∃ c, ResetWith ops c0 = some c ∧ c.bit = c0.bit ∧ c.min = min c0.min 0 ∧
      c.max = max c0.max 0 ∧ c.scale = scale ∧
      (c.zeroPoint : ℤ) ≤ 2 ^ c0.bit.toNat - 1 ∧
      (c.zeroPoint : ℤ) = max 0 (min (round izp) (2 ^ c0.bit.toNat - 1)) := by
  have hn : 0 ≤ c0.bit ∧ c0.bit ≤ 30 ∧ c0.bit.toNat ≤ 8 := by omega
  have hQ0 : (0 : ℤ) ≤ 2 ^ c0.bit.toNat - 1 := int_qmax_nonneg _
  have hQ1 : (2 : ℤ) ^ c0.bit.toNat - 1 ≤ 255 := by
    have h : (2 : ℤ) ^ c0.bit.toNat ≤ 2 ^ 8 := pow_le_pow_right₀ (by norm_num) hn.2.2
    norm_num at h
    linarith
  have hm : shiftMask c0.bit = .ok (2 ^ c0.bit.toNat - 1) := by
    unfold shiftMask
    rw [if_pos ⟨hn.1, hn.2.1⟩]
  have hz := zeroPoint_branches izp (2 ^ c0.bit.toNat - 1) hQ0 hQ1
  refine ⟨{ bit := c0.bit, min := min c0.min 0, max := max c0.max 0,
            zeroPoint := (max 0 (min (round izp) (2 ^ c0.bit.toNat - 1))).toNat,
            scale := scale }, ?_, rfl, rfl, rfl, rfl, ?_, ?_⟩
  · rw [hconv] at h2
    rw [ResetWith_unfold, hm]
    show (some _).bind _ = _
    simp only [Option.some_bind, stdMin_eq_min, stdMax_eq_max, h1, h2, h3, h4, h5, hconv, hz]
    rfl
  · show ((max 0 (min (round izp) (2 ^ c0.bit.toNat - 1))).toNat : ℤ) ≤ _
    omega
  · show ((max 0 (min (round izp) (2 ^ c0.bit.toNat - 1))).toNat : ℤ) = _
    omega

/-- C4: Reset is idempotent: running Reset on the outcome of Reset gives the outcome of the
first Reset, for every state. -/
theorem Reset_idempotent (c : LowBitConfig α) : (Reset c).bind Reset = Reset c := by
  cases h : Reset c with
  | error e => rfl
  | ok c1 =>
    obtain ⟨_, _, hb, hmin, hmax, _⟩ := Reset_eq_ok h
    have e : Reset c1 = Reset c := by
      apply Reset_congr hb
      · rw [stdMin_eq_min, stdMin_eq_min, hmin, min_assoc, min_self]
      · rw [stdMax_eq_max, stdMax_eq_max, hmax, max_assoc, max_self]
    show Reset c1 = .ok c1
    rw [e, h]

/-- C9: after Reset with bit in {1, 2, 4, 8} and scale > 0 the bounds satisfy min <= 0 <= max,
quantization(0) is zeroPoint and invQuantization(zeroPoint) is 0. -/
theorem zero_is_representable (c0 c : LowBitConfig α)
    (hb : c0.bit = 1 ∨ c0.bit = 2 ∨ c0.bit = 4 ∨ c0.bit = 8) (hr : Reset c0 = .ok c)
    (_hs : 0 < c.scale) :
    c.min ≤ 0 ∧ 0 ≤ c.max ∧ quantization c 0 = .ok c.zeroPoint ∧
      invQuantization c c.zeroPoint = 0 := by
  obtain ⟨d, _, h8, _⟩ := Reset_derived hb hr
  refine ⟨d.min_le, d.max_ge, ?_, ?_⟩
  · obtain ⟨q, hq, hqe⟩ := quantization_spec d h8 0
    rw [zero_div, zero_add, round_natCast] at hqe
    have := d.zp_le_qmax
    have e : q = c.zeroPoint := by omega
    rw [hq, e]
  · unfold invQuantization
    rw [sub_self, mul_zero]

/-- C10: after Reset with bit in {1, 2, 4, 8} and scale > 0, quantization(invQuantization(q))
is q for every code q in [0, 2^bit - 1]; and every code q that quantization returns satisfies
it, so that quantise-then-dequantise, applied twice, gives what it gives applied once. -/
theorem requantization_exact (c0 c : LowBitConfig α)
    (hb : c0.bit = 1 ∨ c0.bit = 2 ∨ c0.bit = 4 ∨ c0.bit = 8) (hr : Reset c0 = .ok c)
    (_hs : 0 < c.scale) :
    (∀ q : ℕ, (q : ℤ) ≤ 2 ^ c.bit.toNat - 1 → quantization c (invQuantization c q) = .ok q) ∧
      ∀ x, ∃ q : ℕ, quantization c x = .ok q ∧
        quantization c (invQuantization c q) = .ok q := by
  obtain ⟨d, _, h8, _⟩ := Reset_derived hb hr
  have id_on_codes : ∀ q : ℕ, (q : ℤ) ≤ 2 ^ c.bit.toNat - 1 →
      quantization c (invQuantization c q) = .ok q := by
    intro q hq
    obtain ⟨q2, hq2, hqe⟩ := quantization_spec d h8 (invQuantization c q)
    have e : invQuantization c q / c.scale + (c.zeroPoint : α) = ((q : ℤ) : α) := by
      unfold invQuantization
      have := d.scale_pos.ne.symm
      field_simp
    rw [e, round_intCast] at hqe
    have e2 : q2 = q := by omega
    rw [hq2, e2]
  refine ⟨id_on_codes, fun x => ?_⟩
  obtain ⟨q, hq, hqe⟩ := quantization_spec d h8 x
  have := int_qmax_nonneg c.bit.toNat
  exact ⟨q, hq, id_on_codes q (by omega)⟩

/-- C1 witness: the 8-bit segment [-1, 1]. -/
theorem roundtrip_error_le_half_scale_witness :
    min (-1 : ℚ) 0 < max 1 0 ∧
    ∃ c, LowBitConfig.new (-1 : ℚ) 1 8 0 0 = .ok c ∧ c.min = min (-1) 0 ∧ c.max = max 1 0 ∧
      0 < c.scale ∧
      ∀ x, c.min ≤ x → x ≤ c.max →
        ∃ q : ℕ, quantization c x = .ok q ∧ |invQuantization c q - x| ≤ c.scale / 2 :=
  ⟨by norm_num,
    roundtrip_error_le_half_scale (-1) 1 8 0 0 (by decide) (by norm_num)⟩

/-- C2 witness: the 8-bit segment [-1, 1] at the input 1000, far outside the segment. -/
theorem quantization_eq_clamp_round_witness :
    Reset (⟨8, -1, 1, 0, 0⟩ : LowBitConfig ℚ) = .ok ⟨8, -1, 1, 128, 2 / 255⟩ ∧
    (0 : ℚ) < (⟨8, -1, 1, 128, 2 / 255⟩ : LowBitConfig ℚ).scale ∧
    ∃ q : ℕ, quantization (⟨8, -1, 1, 128, 2 / 255⟩ : LowBitConfig ℚ) 1000 = .ok q ∧
      (q : ℤ) = max 0 (min (round ((1000 : ℚ) / (2 / 255) + ((128 : ℕ) : ℚ))) (2 ^ 8 - 1)) ∧
      (q : ℤ) ≤ 2 ^ 8 - 1 :=
  ⟨Reset_sample, by norm_num,
    quantization_eq_clamp_round ⟨8, -1, 1, 0, 0⟩ ⟨8, -1, 1, 128, 2 / 255⟩ (by decide)
      Reset_sample (by norm_num) 1000⟩

/-- C3 counterexample: at bit = 16 and the segment [-1, 0], which is not both zero, the value
the claim asks for is 65535, more than a byte holds, and Reset stores no zero point at all: the
conversion of 65535 to the one-byte field is out of range, in the arithmetic without rounding
and in binary32 alike. -/
theorem Reset_zeroPoint_bit16_counterexample :
    ¬ (min (-1 : ℚ) 0 = 0 ∧ max (0 : ℚ) 0 = 0) ∧
    max 0 (min (round (-(min (-1 : ℚ) 0) / ((max 0 0 - min (-1) 0) / (2 ^ 16 - 1))))
      (2 ^ 16 - 1)) = (65535 : ℤ) ∧
    Reset (⟨16, -1, 0, 0, 0⟩ : LowBitConfig ℚ) = .error .castOutOfRange ∧
    ResetWith binary32Ops (⟨16, -1, 0, 0, 0⟩ : LowBitConfig ℚ) = none ∧
    ¬ ∃ c, Reset (⟨16, -1, 0, 0, 0⟩ : LowBitConfig ℚ) = .ok c ∧
      (c.zeroPoint : ℤ) ≤ 2 ^ 16 - 1 ∧
      (c.zeroPoint : ℤ) = max 0 (min (round (-c.min / c.scale)) (2 ^ 16 - 1)) := by
  refine ⟨by norm_num, ?_, Reset_sample_16, ResetWith_binary32_sample_16, ?_⟩
  · have e : -(min (-1 : ℚ) 0) / ((max 0 0 - min (-1) 0) / (2 ^ 16 - 1)) = ((65535 : ℤ) : ℚ) := by
      norm_num
    rw [e, round_intCast]
    norm_num
  · rintro ⟨c, hc, -⟩
    rw [Reset_sample_16] at hc
    cases hc

/-- C3 witness: binary32 on the 8-bit segment [-1, 1].  The scale 2/255 rounds up to
8421505 / 2^30, the quotient min / scale rounds to -16711679 / 2^17 = -127.49999237..., and the
zero point is that value negated, rounded and clamped, which is 127; the arithmetic without
rounding has 127.5 there. -/
theorem ResetWith_zeroPoint_witness :
    ∃ c, ResetWith binary32Ops (⟨8, -1, 1, 0, 0⟩ : LowBitConfig ℚ) = some c ∧ c.bit = 8 ∧
      c.min = min (-1) 0 ∧ c.max = max 1 0 ∧ c.scale = 8421505 / 1073741824 ∧
      (c.zeroPoint : ℤ) ≤ 2 ^ (8 : ℤ).toNat - 1 ∧
      (c.zeroPoint : ℤ) =
        max 0 (min (round (16711679 / 131072 : ℚ)) (2 ^ (8 : ℤ).toNat - 1)) ∧
      max 0 (min (round (16711679 / 131072 : ℚ)) (2 ^ (8 : ℤ).toNat - 1)) = 127 := by
  have hv : max 0 (min (round (16711679 / 131072 : ℚ)) (2 ^ (8 : ℤ).toNat - 1)) = 127 := by
    have hf : round (16711679 / 131072 : ℚ) = 127 := by
      rw [round_eq]
      norm_num [Int.floor_eq_iff]
    rw [hf]
    norm_num [show (8 : ℤ).toNat = 8 from rfl]
  obtain ⟨c, h1, h2, h3, h4, h5, h6, h7⟩ :=
    ResetWith_zeroPoint binary32Ops ⟨8, -1, 1, 0, 0⟩ 2 255 (8421505 / 1073741824)
      (-(16711679 / 131072)) (16711679 / 131072) (by decide) binary32_ofInt_mask binary32_range
      binary32_levels binary32_scale binary32_quot binary32_izp
  exact ⟨c, h1, h2, h3, h4, h5, h6, h7, hv⟩

/-- C5 (code at the failing input): with min = max = 0 and bit = 8 the constructor computes
scale = 0 and then divides min by it, and quantization on a config of scale 0 divides its
input by zero; neither yields a value in exact arithmetic. -/
theorem degenerate_segment_divides_by_zero (z0 : ℕ) (s0 x : α) :
    LowBitConfig.new (0 : α) 0 8 z0 s0 = .error .divByZero ∧
      quantization (⟨8, 0, 0, z0, 0⟩ : LowBitConfig α) x = .error .divByZero := by
  have h8 : Int.toNat 8 = 8 := rfl
  constructor
  · unfold LowBitConfig.new
    norm_num [Reset_unfold, shiftMask, fdiv, stdMin, stdMax, Except.bind, h8]
  · norm_num [quantization, shiftMask, fdiv, bind, Except.bind]

/-- C9 witness: the 8-bit segment [-1, 1], zero point 128. -/
theorem zero_is_representable_witness :
    Reset (⟨8, -1, 1, 0, 0⟩ : LowBitConfig ℚ) = .ok ⟨8, -1, 1, 128, 2 / 255⟩ ∧
    (-1 : ℚ) ≤ 0 ∧ (0 : ℚ) ≤ 1 ∧
    quantization (⟨8, -1, 1, 128, 2 / 255⟩ : LowBitConfig ℚ) 0 = .ok 128 ∧
    invQuantization (⟨8, -1, 1, 128, 2 / 255⟩ : LowBitConfig ℚ) 128 = 0 :=
  ⟨Reset_sample,
    zero_is_representable ⟨8, -1, 1, 0, 0⟩ ⟨8, -1, 1, 128, 2 / 255⟩ (by decide) Reset_sample
      (by norm_num)⟩

/-- C10 witness: the 8-bit segment [-1, 1]. -/
theorem requantization_exact_witness :
    Reset (⟨8, -1, 1, 0, 0⟩ : LowBitConfig ℚ) = .ok ⟨8, -1, 1, 128, 2 / 255⟩ ∧
    ((∀ q : ℕ, (q : ℤ) ≤ 2 ^ (8 : ℤ).toNat - 1 →
        quantization (⟨8, -1, 1, 128, 2 / 255⟩ : LowBitConfig ℚ)
          (invQuantization ⟨8, -1, 1, 128, 2 / 255⟩ q) = .ok q) ∧
      ∀ x, ∃ q : ℕ, quantization (⟨8, -1, 1, 128, 2 / 255⟩ : LowBitConfig ℚ) x = .ok q ∧
        quantization (⟨8, -1, 1, 128, 2 / 255⟩ : LowBitConfig ℚ)
          (invQuantization ⟨8, -1, 1, 128, 2 / 255⟩ q) = .ok q) :=
  ⟨Reset_sample,
    requantization_exact ⟨8, -1, 1, 0, 0⟩ ⟨8, -1, 1, 128, 2 / 255⟩ (by decide) Reset_sample
      (by norm_num)⟩

end QuantClaims

section ParseLemmas

theorem mem_valueOptions {a : String} (h : a ∈ valueOptions) :
    a = "-m" ∨ a = "--model" ∨ a = "-p" ∨ a = "--path" ∨ a = "-b" ∨ a = "--bits" ∨
      a = "-o" ∨ a = "--output" := by
  simpa [valueOptions] using h

/-- One step of the loop on a value-taking option followed by a value. -/
theorem parseLoop_pair (atoi : String → Int) (i : Nat) (a v : String) (t : List String)
    (config : QuantConfig) (h : a ∈ valueOptions) :
    parseLoop atoi i (a :: v :: t) config =
      parseLoop atoi (i + 2) t
        { model := if a ∈ ["-m", "--model"] then v else config.model,
          path := if a ∈ ["-p", "--path"] then v else config.path,
          output := if a ∈ ["-o", "--output"] then v else config.output,
          bits := if a ∈ ["-b", "--bits"] then atoi v else config.bits } := by
  rcases mem_valueOptions h with h | h | h | h | h | h | h | h <;> subst h <;>
    simp [parseLoop]

/-- One step of the loop on a token that is neither a value-taking option nor a help option. -/
theorem parseLoop_unrecognised (atoi : String → Int) (i : Nat) (a : String) (t : List String)
    (config : QuantConfig) (hv : a ∉ valueOptions) (hh : a ∉ helpOptions) :
    parseLoop atoi i (a :: t) config = .exited (-1) := by
  simp [valueOptions] at hv
  simp [helpOptions] at hh
  obtain ⟨h1, h2, h3, h4, h5, h6, h7, h8⟩ := hv
  cases t <;> simp [parseLoop, h1, h2, h3, h4, h5, h6, h7, h8, hh.1, hh.2]

theorem parseLoop_stops (atoi : String → Int) (t : String) (ht : t ∉ helpOptions) :
    ∀ (l : List String) (i : Nat) (config : QuantConfig),
      (optionTokens l).find? (fun s => decide (s ∉ valueOptions)) = some t →
        parseLoop atoi i l config = .exited (-1) := by
  intro l
  induction l using optionTokens.induct with
  | case1 => intro i config h; simp [optionTokens] at h
  | case2 a =>
    intro i config h
    by_cases ha : a ∈ valueOptions
    · simp [optionTokens, ha] at h
    · simp [optionTokens, ha] at h
      subst h
      exact parseLoop_unrecognised atoi i a [] config ha ht
  | case3 a v rest ha ih =>
    intro i config h
    rw [parseLoop_pair atoi i a v rest config ha]
    apply ih
    simpa [optionTokens, ha] using h
  | case4 a v rest ha ih =>
    intro i config h
    simp [optionTokens, ha] at h
    subst h
    exact parseLoop_unrecognised atoi i a (v :: rest) config ha ht

theorem lastValue_cons (names : List String) (p : String × String)
    (ps : List (String × String)) :
    lastValue names (p :: ps) =
      (lastValue names ps).or (if p.1 ∈ names then some p.2 else none) := by
  unfold lastValue
  rw [List.reverse_cons, List.find?_append]
  cases h : List.find? (fun p => decide (p.1 ∈ names)) ps.reverse with
  | some w => simp
  | none =>
    by_cases hp : p.1 ∈ names <;> simp [hp]

theorem parseLoop_pairs (atoi : String → Int) :
    ∀ (pairs : List (String × String)) (i : Nat) (config : QuantConfig),
      (∀ p ∈ pairs, p.1 ∈ valueOptions) →
        parseLoop atoi i (flattenPairs pairs) config =
          .returned
            { model := (lastValue ["-m", "--model"] pairs).getD config.model,
              path := (lastValue ["-p", "--path"] pairs).getD config.path,
              output := (lastValue ["-o", "--output"] pairs).getD config.output,
              bits := ((lastValue ["-b", "--bits"] pairs).map atoi).getD config.bits } := by
  intro pairs
  induction pairs with
  | nil => intro i config _; simp [flattenPairs, lastValue, parseLoop]
  | cons p ps ih =>
    intro i config h
    have hp : p.1 ∈ valueOptions := h p (List.mem_cons_self _ _)
    have hps : ∀ q ∈ ps, q.1 ∈ valueOptions := fun q hq => h q (List.mem_cons_of_mem _ hq)
    rw [flattenPairs, parseLoop_pair atoi i p.1 p.2 (flattenPairs ps) config hp, ih _ _ hps]
    simp only [lastValue_cons]
    congr 2
    · cases lastValue ["-m", "--model"] ps <;> by_cases hm : p.1 ∈ ["-m", "--model"] <;>
        simp [hm]
    · cases lastValue ["-p", "--path"] ps <;> by_cases hm : p.1 ∈ ["-p", "--path"] <;>
        simp [hm]
    · cases lastValue ["-o", "--output"] ps <;> by_cases hm : p.1 ∈ ["-o", "--output"] <;>
        simp [hm]
    · cases lastValue ["-b", "--bits"] ps <;> by_cases hm : p.1 ∈ ["-b", "--bits"] <;>
        simp [hm]

end ParseLemmas

section ParseClaims

/-- C6 counterexample: in the argument list quant -h -x every value-taking option is followed
by a value and the first token in option position that is not a help option is -x, which is
not a value-taking option; yet ParseArgs exits with status 0 at -h, and so does main. -/
theorem unrecognised_after_help_counterexample :
    valuesFollow (["quant", "-h", "-x"].drop 1) = true ∧
    (optionTokens (["quant", "-h", "-x"].drop 1)).find? (fun s => decide (s ∉ helpOptions))
      = some "-x" ∧
    "-x" ∉ valueOptions ∧
    ParseArgs (fun _ => 0) ["quant", "-h", "-x"] (QuantConfig.init 0) = .exited 0 ∧
    main (fun _ => 0) 0 ["quant", "-h", "-x"] = ⟨[.usage], .exit 0⟩ := by
  decide

/-- C6 (amended): when every value-taking option is followed by a value and the first token in
option position that is not a value-taking option is not -h or --help either, ParseArgs prints the
usage and exits with status -1, and main ends so with no model loaded or saved; and when
ParseArgs returns a model string other than moss, chatglm and vicuna, main prints the usage and
exits with status -1 with no model loaded or saved. -/
theorem quant_exits_on_bad_arguments (atoi : String → Int) (bits0 : Int) (argv : List String)
    (config : QuantConfig) :
    (∀ t, valuesFollow (argv.drop 1) = true →
      (optionTokens (argv.drop 1)).find? (fun s => decide (s ∉ valueOptions)) = some t →
      t ∉ helpOptions →
        ParseArgs atoi argv config = .exited (-1) ∧
          main atoi bits0 argv = ⟨[.usage], .exit (-1)⟩) ∧
    (∀ parsed, ParseArgs atoi argv (QuantConfig.init bits0) = .returned parsed →
      parsed.model ≠ "moss" → parsed.model ≠ "chatglm" → parsed.model ≠ "vicuna" →
        main atoi bits0 argv = ⟨[.usage], .exit (-1)⟩) := by
  constructor
  · intro t _ hf ht
    refine ⟨parseLoop_stops atoi t ht _ 1 config hf, ?_⟩
    have h := parseLoop_stops atoi t ht _ 1 (QuantConfig.init bits0) hf
    unfold main ParseArgs
    rw [h]
  · intro parsed hp h1 h2 h3
    unfold main
    rw [hp]
    simp only [if_neg h1, if_neg h2, if_neg h3]

/-- C6 witness: quant -m moss -x stops at -x, and quant -m llama names an unknown model. -/
theorem quant_exits_on_bad_arguments_witness :
    (ParseArgs (fun _ => 0) ["quant", "-m", "moss", "-x"] (QuantConfig.init 0) = .exited (-1) ∧
      main (fun _ => 0) 0 ["quant", "-m", "moss", "-x"] = ⟨[.usage], .exit (-1)⟩) ∧
    main (fun _ => 0) 0 ["quant", "-m", "llama"] = ⟨[.usage], .exit (-1)⟩ :=
  ⟨(quant_exits_on_bad_arguments (fun _ => 0) 0 ["quant", "-m", "moss", "-x"]
      (QuantConfig.init 0)).1 "-x" (by decide) (by decide) (by decide),
    (quant_exits_on_bad_arguments (fun _ => 0) 0 ["quant", "-m", "llama"]
      (QuantConfig.init 0)).2 { model := "llama", path := "", output := "", bits := 0 }
      (by decide) (by decide) (by decide) (by decide)⟩

/-- C7 (code at the failing input): on quant -m, with argc = 2, ParseArgs evaluates sargv[2],
past the end of the vector, and neither prints the usage nor exits; the same for a trailing
--bits after a complete pair. -/
theorem ParseArgs_trailing_option_reads_past_end (atoi : String → Int) (bits0 : Int)
    (config : QuantConfig) :
    ParseArgs atoi ["quant", "-m"] config = .readPastEnd 2 ∧
    ParseArgs atoi ["quant", "-p", "in.bin", "--bits"] config = .readPastEnd 4 ∧
    main atoi bits0 ["quant", "-m"] = ⟨[], .readPastEnd 2⟩ := by
  refine ⟨?_, ?_, ?_⟩ <;> simp [main, ParseArgs, parseLoop]

/-- C8: on a program name followed by (option, value) pairs with value-taking options,
ParseArgs returns; model, path and output are the value of the last pair with that option,
bits is atoi of the value of the last -b or --bits pair, and model is chatglm when there is no
-m or --model pair. -/
theorem ParseArgs_option_value_pairs (atoi : String → Int) (prog : String)
    (pairs : List (String × String)) (bits0 : Int) (h : ∀ p ∈ pairs, p.1 ∈ valueOptions) :
    ∃ config, ParseArgs atoi (prog :: flattenPairs pairs) (QuantConfig.init bits0)
        = .returned config ∧
      (∀ v, lastValue ["-m", "--model"] pairs = some v → config.model = v) ∧
      (lastValue ["-m", "--model"] pairs = none → config.model = "chatglm") ∧
      (∀ v, lastValue ["-p", "--path"] pairs = some v → config.path = v) ∧
      (∀ v, lastValue ["-o", "--output"] pairs = some v → config.output = v) ∧
      (∀ v, lastValue ["-b", "--bits"] pairs = some v → config.bits = atoi v) := by
  refine ⟨_, parseLoop_pairs atoi pairs 1 (QuantConfig.init bits0) h, ?_, ?_, ?_, ?_, ?_⟩
  · intro v hv; simp [hv]
  · intro hv; simp [hv, QuantConfig.init]
  · intro v hv; simp [hv]
  · intro v hv; simp [hv]
  · intro v hv; simp [hv]

/-- C8 witness: quant -m moss -b 4 --model vicuna -o -h, where the value of -o is the
string -h. -/
theorem ParseArgs_option_value_pairs_witness :
    ∃ config, ParseArgs (fun s => s.toInt?.getD 0)
        ("quant" :: flattenPairs
          [("-m", "moss"), ("-b", "4"), ("--model", "vicuna"), ("-o", "-h")])
        (QuantConfig.init 0) = .returned config ∧
      (∀ v, lastValue ["-m", "--model"]
          [("-m", "moss"), ("-b", "4"), ("--model", "vicuna"), ("-o", "-h")] = some v →
        config.model = v) ∧
      (lastValue ["-m", "--model"]
          [("-m", "moss"), ("-b", "4"), ("--model", "vicuna"), ("-o", "-h")] = none →
        config.model = "chatglm") ∧
      (∀ v, lastValue ["-p", "--path"]
          [("-m", "moss"), ("-b", "4"), ("--model", "vicuna"), ("-o", "-h")] = some v →
        config.path = v) ∧
      (∀ v, lastValue ["-o", "--output"]
          [("-m", "moss"), ("-b", "4"), ("--model", "vicuna"), ("-o", "-h")] = some v →
        config.output = v) ∧
      (∀ v, lastValue ["-b", "--bits"]
          [("-m", "moss"), ("-b", "4"), ("--model", "vicuna"), ("-o", "-h")] = some v →
        config.bits = (fun s => s.toInt?.getD 0) v) :=
  ParseArgs_option_value_pairs (fun s => s.toInt?.getD 0) "quant"
    [("-m", "moss"), ("-b", "4"), ("--model", "vicuna"), ("-o", "-h")] 0 (by decide)

end ParseClaims

end fastllm
